import Mathlib

/-!
Verification development for the ePACT2 dashboard compiler
(`app.py`): a four-stage batch pipeline (load, normalize, merge, pivot,
export) over small in-memory tables.  Tables are embedded as lists of
rows, numeric cells as rationals, dates as parsed (year, month) pairs,
nullable cells as `Option`.  Each definition below transcribes one
pandas expression of the source; theorems at the end settle the
specification's claims against these definitions.
-/

/-- A calendar month key: (year, month number), the result of parsing a
`Mon-YY` string (`pd.to_datetime(..., format = the b-y pattern)`). -/
abbrev MonthKey := Nat × Nat

/-- Abbreviated month names (lowercase) with their month numbers, as
matched by the strptime month directive (case-insensitively). -/
def monthAbbr : List (String × Nat) :=
  [("jan", 1), ("feb", 2), ("mar", 3), ("apr", 4), ("may", 5), ("jun", 6),
   ("jul", 7), ("aug", 8), ("sep", 9), ("oct", 10), ("nov", 11), ("dec", 12)]

/-- Look up a lowercased three-letter abbreviation among the month
names. -/
def monthNum (cs : List Char) : Option Nat :=
  (monthAbbr.find? (fun p => p.1.data == cs)).map (·.2)

/-- Convert a two-digit year as strptime does: 69..99 mapped into the
1900s and 00..68 into the 2000s. -/
def year2 (y : Nat) : Nat :=
  if y ≤ 68 then 2000 + y else 1900 + y

/-- Parse a `Mon-YY` month string, as strptime with that format does:
a case-insensitive three-letter month abbreviation, a literal hyphen,
exactly two digits, and nothing else; `none` models NaT from
`pd.to_datetime(..., errors = coerce)`. -/
def parseMonth (s : String) : Option MonthKey :=
  match s.data.map Char.toLower with
  | [c1, c2, c3, '-', d1, d2] =>
      match monthNum [c1, c2, c3] with
      | some mn =>
          if d1.isDigit && d2.isDigit then
            some (year2 ((d1.toNat - 48) * 10 + (d2.toNat - 48)), mn)
          else none
      | none => none
  | _ => none

/-- After an optional single space, a decimal digit (the tail of the
closed-practice regex). -/
def digitTail (cs : List Char) : Bool :=
  match cs with
  | ' ' :: rest =>
      match rest with
      | d :: _ => d.isDigit
      | [] => false
  | d :: _ => d.isDigit
  | [] => false

/-- A `C` or `D` (case-sensitive), then an optional space and a digit. -/
def cdTail (cs : List Char) : Bool :=
  match cs with
  | c :: rest => (c == 'C' || c == 'D') && digitTail rest
  | [] => false

/-- The closed/dispensing practice-code pattern anchored at the head of
the character list: an opening parenthesis, an optional space, `C` or
`D`, an optional space, a digit.  Transcribes the source regex at
app.py line 59. -/
def closedAt (cs : List Char) : Bool :=
  match cs with
  | '(' :: rest =>
      match rest with
      | ' ' :: rest2 => cdTail rest2
      | _ => cdTail rest
  | _ => false

/-- Does any suffix of the character list satisfy the predicate?  Models
an unanchored regex search. -/
def anyTail (p : List Char → Bool) : List Char → Bool
  | [] => p []
  | c :: rest => p (c :: rest) || anyTail p rest

/-- `Practice plus Code` matches the closed/dispensing pattern somewhere
in the string (`Series.str.contains` with the source regex). -/
def matchesClosedPattern (s : String) : Bool :=
  anyTail closedAt s.data

/-- The pattern as the specification words it: a parenthesized segment
of the literal form `( C<digit>` or `( D<digit>`, with a mandatory
space.  Written from the spec's words, to be compared with
`matchesClosedPattern`, which is transcribed from the source regex. -/
def specClosedAt (cs : List Char) : Bool :=
  match cs with
  | '(' :: ' ' :: c :: d :: _ => (c == 'C' || c == 'D') && d.isDigit
  | _ => false

/-- The spec-worded pattern, searched anywhere in the string. -/
def specClosedPattern (s : String) : Bool :=
  anyTail specClosedAt s.data

/-- The fixed organisation canonicalization map
(`organisation_legend_mapping` in the source). -/
def organisation_legend_mapping : List (String × String) :=
  [("NHS NORTH EAST AND NORTH CUMBRIA ICB - 84H", "Durham"),
   ("NHS NORTH EAST AND NORTH CUMBRIA ICB - 00P", "Sunderland"),
   ("NHS NORTH EAST AND NORTH CUMBRIA ICB - 00L", "Northumberland"),
   ("NHS NORTH EAST AND NORTH CUMBRIA ICB - 01H", "North Cumbria"),
   ("NHS NORTH EAST AND NORTH CUMBRIA ICB - 13T", "Newcastle-Gateshead"),
   ("NHS NORTH EAST AND NORTH CUMBRIA ICB - 16C", "Tees Valley"),
   ("NHS NORTH EAST AND NORTH CUMBRIA ICB - 99C", "North Tyneside"),
   ("NHS NORTH EAST AND NORTH CUMBRIA ICB - 00N", "South Tyneside"),
   ("ENGLAND", "England")]

/-- Apply the canonicalization map (`Series.replace`): mapped
identifiers are substituted, unmapped ones pass through unchanged. -/
def canonOrg (s : String) : String :=
  ((organisation_legend_mapping.find? (fun p => p.1 == s)).map (·.2)).getD s

/-- One row of a local input file.  `practiceCode` is the cell of the
`Practice plus Code` column when the table has it (`none` models a
missing/NaN cell).  Numerator and Denominator are assumed numeric, per
the input schema. -/
structure LocalRow where
  org : String
  practiceCode : Option String
  month : String
  numerator : ℚ
  denominator : ℚ
deriving DecidableEq, Repr

/-- A local input table; `hasPracticeCol` records whether the optional
`Practice plus Code` column is present at all. -/
structure LocalTable where
  hasPracticeCol : Bool
  rows : List LocalRow
deriving DecidableEq, Repr

/-- One row of a national input file; `value` is nullable (a blank CSV
cell reads as NaN). -/
structure NationalRow where
  country : String
  month : String
  value : Option ℚ
deriving DecidableEq, Repr

/-- A national input table. -/
structure NationalTable where
  rows : List NationalRow
deriving DecidableEq, Repr

/-- Step 1 of `clean_local`: when the practice-code column exists, drop
the rows whose code matches the closed/dispensing pattern; missing
cells never match (`na = False`), and without the column no row is
dropped. -/
def localFiltered (t : LocalTable) : List LocalRow :=
  if t.hasPracticeCol then
    t.rows.filter (fun r =>
      match r.practiceCode with
      | some s => !(matchesClosedPattern s)
      | none => true)
  else t.rows

/-- A local row after month parsing and organisation canonicalization
(steps 3 and 4 of `clean_local`); extraneous columns are dropped by
construction. -/
structure PRow where
  org : String
  month : Option MonthKey
  num : ℚ
  den : ℚ
deriving DecidableEq, Repr

/-- Steps 2 to 4 of `clean_local`: drop extraneous columns, parse
`Month`, canonicalize the organisation name. -/
def localParsed (t : LocalTable) : List PRow :=
  (localFiltered t).map (fun r =>
    ⟨canonOrg r.org, parseMonth r.month, r.numerator, r.denominator⟩)

/-- Deduplicate keeping the first occurrence of each element; `seen`
accumulates the elements already emitted. -/
def dedupFirstAux {α : Type} [DecidableEq α] : List α → List α → List α
  | _, [] => []
  | seen, a :: l =>
      if a ∈ seen then dedupFirstAux seen l
      else a :: dedupFirstAux (a :: seen) l

/-- Deduplicate a list keeping first occurrences. -/
def dedupFirst {α : Type} [DecidableEq α] (l : List α) : List α :=
  dedupFirstAux [] l

/-- The distinct (organisation, month) group keys of the parsed rows;
rows whose month failed to parse carry no key (pandas `groupby` drops
null keys). -/
def groupKeys (rs : List PRow) : List (String × MonthKey) :=
  dedupFirst (rs.filterMap (fun r => r.month.map (fun m => (r.org, m))))

/-- Sum of `Numerator` over the parsed rows with the given key. -/
def sumNumAt (rs : List PRow) (k : String × MonthKey) : ℚ :=
  ((rs.filter (fun r => decide (r.org = k.1 ∧ r.month = some k.2))).map (·.num)).sum

/-- Sum of `Denominator` over the parsed rows with the given key. -/
def sumDenAt (rs : List PRow) (k : String × MonthKey) : ℚ :=
  ((rs.filter (fun r => decide (r.org = k.1 ∧ r.month = some k.2))).map (·.den)).sum

/-- A grouped row: one (organisation, month) key with its summed
Numerator and Denominator. -/
structure GRow where
  org : String
  month : MonthKey
  num : ℚ
  den : ℚ
deriving DecidableEq, Repr

/-- Step 5 of `clean_local`: group by (organisation, month) and sum the
numeric columns. -/
def localGrouped (t : LocalTable) : List GRow :=
  (groupKeys (localParsed t)).map (fun k =>
    ⟨k.1, k.2, sumNumAt (localParsed t) k, sumDenAt (localParsed t) k⟩)

/-- The fixed synthetic region name given to rollup rows. -/
def icbName : String := "North East and North Cumbria"

/-- The distinct months of the grouped table, one rollup row each. -/
def rollupMonths (t : LocalTable) : List MonthKey :=
  dedupFirst ((localGrouped t).map (·.month))

/-- Sum of a grouped column over the grouped rows of one month. -/
def rollupSum (gs : List GRow) (f : GRow → ℚ) (m : MonthKey) : ℚ :=
  ((gs.filter (fun g => decide (g.month = m))).map f).sum

/-- Step 6 of `clean_local`: the synthetic regional rollup rows, one per
distinct month, summing Numerator and Denominator across all
organisations of that month. -/
def localRollup (t : LocalTable) : List GRow :=
  (rollupMonths t).map (fun m =>
    ⟨icbName, m, rollupSum (localGrouped t) (·.num) m,
     rollupSum (localGrouped t) (·.den) m⟩)

/-- The local table just before the percentage computation: grouped
organisation rows with the rollup rows appended (`pd.concat`). -/
def localPrePct (t : LocalTable) : List GRow :=
  localGrouped t ++ localRollup t

/-- Round a rational to the nearest integer, ties to even (the numpy
rounding rule used by `ndarray.round`). -/
def roundHalfEven (q : ℚ) : ℤ :=
  if q - ⌊q⌋ < 1 / 2 then ⌊q⌋
  else if 1 / 2 < q - ⌊q⌋ then ⌊q⌋ + 1
  else if 2 ∣ ⌊q⌋ then ⌊q⌋ else ⌊q⌋ + 1

/-- Round to two decimal places (`.round(2)`). -/
def round2 (q : ℚ) : ℚ :=
  (roundHalfEven (q * 100) : ℚ) / 100

/-- Step 7 of `clean_local`: the percentage cell,
`np.where(Denominator ne 0, Numerator / Denominator * 100, 0).round(2)`. -/
def pctOf (n d : ℚ) : ℚ :=
  round2 (if d = 0 then 0 else n / d * 100)

/-- One row of a cleaned table: organisation, parsed month (nullable),
metric value (nullable).  The metric column's name is the user-supplied
label, tracked alongside the table, not inside its rows. -/
structure CRow where
  org : String
  month : Option MonthKey
  value : Option ℚ
deriving DecidableEq, Repr

/-- The local normalizer `clean_local`: filter closed practices, drop
extraneous columns, parse months, canonicalize organisations, group and
sum, append the regional rollup, compute the percentage column, and
keep only (organisation, month, percentage). -/
def clean_local (t : LocalTable) : List CRow :=
  (localPrePct t).map (fun g => ⟨g.org, some g.month, some (pctOf g.num g.den)⟩)

/-- The national normalizer `clean_national`: drop extraneous columns,
rename Country and Value, parse months, canonicalize organisations, and
keep only (organisation, month, value).  A pure per-row map: no
grouping or aggregation. -/
def clean_national (t : NationalTable) : List CRow :=
  t.rows.map (fun r => ⟨canonOrg r.country, parseMonth r.month, r.value⟩)

/-- A merge key: (organisation, month).  Only rows whose month parsed
carry a key; grouping drops the rest. -/
abbrev Key := String × MonthKey

/-- The grouping key of a cleaned row, when its month is non-null. -/
def keyOf (r : CRow) : Option Key :=
  r.month.map (fun m => (r.org, m))

/-- The first non-null metric value among the rows with the given key,
in row order (`GroupBy.first` skips nulls). -/
def firstAt (rows : List CRow) (k : Key) : Option ℚ :=
  ((rows.filter (fun r => decide (keyOf r = some k))).filterMap (·.value)).head?

/-- A per-label merged table: the label and one (key, nullable value)
row per distinct key. -/
structure MTable where
  label : String
  rows : List (Key × Option ℚ)
deriving DecidableEq, Repr

/-- The per-label merge step: concatenate all cleaned tables of one
label, then `groupby` on the key keeping the first non-null value per
key (`as_index = False`, `.first()`); null-month rows contribute no
key. -/
def mergeLabel (label : String) (rows : List CRow) : MTable :=
  ⟨label, (dedupFirst (rows.filterMap keyOf)).map (fun k => (k, firstAt rows k))⟩

/-- The wide combined table: a list of metric labels and, per row, a key
with one nullable cell per label (parallel to `labels`). -/
structure CTable where
  labels : List String
  rows : List (Key × List (Option ℚ))
deriving DecidableEq, Repr

/-- Does the combined table contain a row with this key? -/
def hasKey (ct : CTable) (k : Key) : Bool :=
  ct.rows.any (fun kv => decide (kv.1 = k))

/-- One outer join (`pd.merge(l, r, on = key columns, how = outer)`):
every left row pairs with each right row of equal key, or pads the
right columns with nulls when none matches; right rows whose key is
absent from the left are appended, left columns padded with nulls. -/
def mergeOuter (l r : CTable) : CTable :=
  ⟨l.labels ++ r.labels,
   ((l.rows.map (fun kv =>
      let ms := r.rows.filter (fun kv2 => decide (kv2.1 = kv.1))
      if ms.isEmpty then [(kv.1, kv.2 ++ List.replicate r.labels.length none)]
      else ms.map (fun kv2 => (kv.1, kv.2 ++ kv2.2)))).flatten)
   ++ ((r.rows.filter (fun kv2 => !(hasKey l kv2.1))).map
        (fun kv2 => (kv2.1, List.replicate l.labels.length none ++ kv2.2)))⟩

/-- View a per-label table as a one-column combined table. -/
def toCTable (m : MTable) : CTable :=
  ⟨[m.label], m.rows.map (fun kv => (kv.1, [kv.2]))⟩

/-- Accumulate the outer joins pairwise in encounter order
(`reduce(lambda l, r: pd.merge(...), merged_dfs)`) over a non-empty
list of per-label tables. -/
def combineNE (t0 : MTable) (ts : List MTable) : CTable :=
  (ts.map toCTable).foldl mergeOuter (toCTable t0)

/-- The final merge with its emptiness guard: `none` models the
`st.error` / `st.stop` abort (user-visible message, no artifact) taken
when there is no per-label table to reduce over. -/
def combineAll : List MTable → Option CTable
  | [] => none
  | t0 :: ts => some (combineNE t0 ts)

/-- `all_metrics.setdefault(label, []).append(cleaned)`: extend the
group of an existing label, or append a new (label, rows) group. -/
def addToGroups : List (String × List CRow) → String → List CRow →
    List (String × List CRow)
  | [], l, t => [(l, t)]
  | (l', ts) :: rest, l, t =>
      if l = l' then (l', ts ++ t) :: rest
      else (l', ts) :: addToGroups rest l t

/-- Build the label-indexed groups in encounter order, concatenating
the cleaned tables of equal labels (the dict preserves insertion
order; `pd.concat` appends rows). -/
def buildGroups (items : List (String × List CRow)) : List (String × List CRow) :=
  items.foldl (fun acc p => addToGroups acc p.1 p.2) []

/-- All cleaned tables with their labels: local files first, then
national files, in upload order. -/
def cleanedItems (ls : List (String × LocalTable)) (ns : List (String × NationalTable)) :
    List (String × List CRow) :=
  ls.map (fun p => (p.1, clean_local p.2)) ++ ns.map (fun p => (p.1, clean_national p.2))

/-- The per-label merged tables, in label encounter order. -/
def mergedTables (ls : List (String × LocalTable)) (ns : List (String × NationalTable)) :
    List MTable :=
  (buildGroups (cleanedItems ls ns)).map (fun g => mergeLabel g.1 g.2)

/-- The combined table of a run, `none` when the pipeline aborts with
no data. -/
def combinedOf (ls : List (String × LocalTable)) (ns : List (String × NationalTable)) :
    Option CTable :=
  combineAll (mergedTables ls ns)

/-- The non-null metric values of column `i` among the combined rows
with the given key (`pivot_table` drops null cells before
aggregating). -/
def cellEntries (ct : CTable) (i : Nat) (k : Key) : List ℚ :=
  ct.rows.filterMap (fun kv =>
    if kv.1 = k then (kv.2.getD i none) else none)

/-- One cell of a pivot sheet: `pivot_table(index = Month, columns =
organisation, values = the label column)` with its default mean
aggregation; an empty cell when no non-null value exists for the
key. -/
def pivotCell (ct : CTable) (i : Nat) (k : Key) : Option ℚ :=
  match cellEntries ct i k with
  | [] => none
  | v :: vs => some ((v :: vs).sum / (v :: vs).length)

/-- Write one sheet into the workbook: a sheet of the same name is
overwritten in place (the writer keeps a name-indexed sheet
dictionary), otherwise the sheet is appended.  A sheet's content is
identified by the index of the combined column it pivots. -/
def sheetWrite (wb : List (String × Nat)) (name : String) (idx : Nat) :
    List (String × Nat) :=
  if wb.any (fun p => p.1 == name) then
    wb.map (fun p => if p.1 == name then (p.1, idx) else p)
  else wb ++ [(name, idx)]

/-- Write the pivot sheets in column order, naming each sheet by its
label truncated to 31 characters (`sheet[:31]`); `i` numbers the
columns already written. -/
def writeSheetsFrom (i : Nat) : List String → List (String × Nat) →
    List (String × Nat)
  | [], wb => wb
  | l :: rest, wb => writeSheetsFrom (i + 1) rest (sheetWrite wb (l.take 31) i)

/-- The workbook of a combined table: one entry per final sheet name,
carrying the index of the label column whose pivot it holds. -/
def writeSheets (labels : List String) : List (String × Nat) :=
  writeSheetsFrom 0 labels []

/-- The whole pipeline after upload: clean every file, merge per label,
outer-join, pivot and export; `none` models the abort (error message,
`st.stop`, no artifact) when no data was uploaded. -/
def pipeline (ls : List (String × LocalTable)) (ns : List (String × NationalTable)) :
    Option (CTable × List (String × Nat)) :=
  (combinedOf ls ns).map (fun ct => (ct, writeSheets ct.labels))

/-- The keys of a per-label merged table, in row order. -/
def keysOfM (t : MTable) : List Key := t.rows.map Prod.fst

/-- The keys of a combined table, in row order. -/
def keysOfC (ct : CTable) : List Key := ct.rows.map Prod.fst

/-- Well-formedness of a combined table: every row has one cell per
label. -/
def WFc (ct : CTable) : Prop :=
  ∀ kv ∈ ct.rows, kv.2.length = ct.labels.length

/-- Column `i` is empty (a null cell) on every row of the combined
table carrying key `k`. -/
def absentCell (ct : CTable) (i : Nat) (k : Key) : Prop :=
  ∀ kv ∈ ct.rows, kv.1 = k → kv.2.getD i none = none

/-! ### Concrete fixtures used by witnesses and counterexamples -/

/-- A small well-formed local table: one organisation, one month. -/
def wTable : LocalTable :=
  ⟨true, [⟨"ORG A", some "P1", "Jan-24", 50, 100⟩]⟩

/-- A local table holding one closed-practice row whose code has no
space after the parenthesis. -/
def c5Table : LocalTable :=
  ⟨true, [⟨"ORG A", some "(C5)", "Jan-24", 1, 2⟩,
          ⟨"ORG A", some "P2", "Jan-24", 3, 4⟩]⟩

/-- A local table whose numerator exceeds its denominator. -/
def c8Table : LocalTable :=
  ⟨false, [⟨"ORG A", none, "Jan-24", 200, 100⟩]⟩

/-- Two cleaned single-row tables sharing one (organisation, month)
key with different values. -/
def c3RowsA : List CRow := [⟨"ORG A", some (2024, 1), some 10⟩]

/-- See `c3RowsA`. -/
def c3RowsB : List CRow := [⟨"ORG A", some (2024, 1), some 20⟩]

/-- A merged per-label table over two keys. -/
def c4M1 : MTable :=
  ⟨"A (%)", [(("X", (2024, 1)), some 1), (("Y", (2024, 1)), some 2)]⟩

/-- A merged per-label table missing the second key of `c4M1`. -/
def c4M2 : MTable :=
  ⟨"B (%)", [(("X", (2024, 1)), some 3)]⟩

/-- A one-row merged table for the pivot witness. -/
def c10M : MTable :=
  ⟨"A (%)", [(("X", (2024, 1)), some 10)]⟩

/-- A 33-character label. -/
def c9L1 : String := "AAAAAAAAAAAAAAAAAAAAAAAAAAAAAAAXX"

/-- A 33-character label sharing the first 31 characters of `c9L1`. -/
def c9L2 : String := "AAAAAAAAAAAAAAAAAAAAAAAAAAAAAAAYY"

/-! ### Helper lemmas -/

theorem mem_dedupFirstAux {α : Type} [DecidableEq α] (a : α) :
    ∀ (l seen : List α), a ∈ dedupFirstAux seen l ↔ a ∈ l ∧ a ∉ seen := by
  intro l
  induction l with
  | nil => intro seen; simp [dedupFirstAux]
  | cons b l ih =>
      intro seen
      by_cases hb : b ∈ seen
      · rw [dedupFirstAux, if_pos hb, ih]
        constructor
        · rintro ⟨h1, h2⟩; exact ⟨List.mem_cons_of_mem _ h1, h2⟩
        · rintro ⟨h1, h2⟩
          rcases List.mem_cons.mp h1 with h | h
          · exact absurd (h ▸ hb) h2
          · exact ⟨h, h2⟩
      · rw [dedupFirstAux, if_neg hb]
        constructor
        · intro h
          rcases List.mem_cons.mp h with h | h
          · exact ⟨h ▸ List.mem_cons_self b l, h ▸ hb⟩
          · obtain ⟨h1, h2⟩ := (ih _).mp h
            exact ⟨List.mem_cons_of_mem _ h1, fun hs => h2 (List.mem_cons_of_mem _ hs)⟩
        · rintro ⟨h1, h2⟩
          rcases List.mem_cons.mp h1 with h | h
          · exact h ▸ List.mem_cons_self b _
          · by_cases hab : a = b
            · exact hab ▸ List.mem_cons_self b _
            · exact List.mem_cons_of_mem _ ((ih _).mpr ⟨h, by
                intro hs
                rcases List.mem_cons.mp hs with h' | h'
                · exact hab h'
                · exact h2 h'⟩)

theorem mem_dedupFirst {α : Type} [DecidableEq α] (a : α) (l : List α) :
    a ∈ dedupFirst l ↔ a ∈ l := by
  rw [dedupFirst, mem_dedupFirstAux]; simp

theorem nodup_dedupFirstAux {α : Type} [DecidableEq α] :
    ∀ (l seen : List α), (dedupFirstAux seen l).Nodup := by
  intro l
  induction l with
  | nil => intro seen; simp [dedupFirstAux]
  | cons b l ih =>
      intro seen
      by_cases hb : b ∈ seen
      · rw [dedupFirstAux, if_pos hb]; exact ih seen
      · rw [dedupFirstAux, if_neg hb]
        refine List.nodup_cons.mpr ⟨?_, ih _⟩
        intro hmem
        exact ((mem_dedupFirstAux b l _).mp hmem).2 (List.mem_cons_self b seen)

theorem nodup_dedupFirst {α : Type} [DecidableEq α] (l : List α) :
    (dedupFirst l).Nodup :=
  nodup_dedupFirstAux l []

theorem getD_replicate' {α : Type} (n i : Nat) (a : α) :
    (List.replicate n a).getD i a = a := by
  induction n generalizing i with
  | zero => simp [List.getD]
  | succ n ih =>
      cases i with
      | zero => simp [List.replicate]
      | succ i => simp [List.replicate, ih i]

theorem getD_append_lt {α : Type} (l1 l2 : List α) (d : α) (i : Nat)
    (h : i < l1.length) : (l1 ++ l2).getD i d = l1.getD i d := by
  induction l1 generalizing i with
  | nil => simp at h
  | cons b l ih =>
      cases i with
      | zero => simp
      | succ i => simpa using ih i (by simpa using h)

theorem getD_append_add {α : Type} (l1 l2 : List α) (d : α) (j : Nat) :
    (l1 ++ l2).getD (l1.length + j) d = l2.getD j d := by
  induction l1 with
  | nil => simp
  | cons b l ih => simpa [Nat.succ_add] using ih

theorem flatten_map_singleton {α β : Type} (l : List α) (f : α → β) :
    (l.map (fun a => [f a])).flatten = l.map f := by
  induction l with
  | nil => rfl
  | cons a l ih => simp [ih]

theorem roundHalfEven_zero : roundHalfEven 0 = 0 := by
  norm_num [roundHalfEven]

theorem round2_zero : round2 0 = 0 := by
  norm_num [round2, roundHalfEven_zero]

theorem pctOf_eq (n d : ℚ) :
    pctOf n d = if d = 0 then 0 else round2 (n / d * 100) := by
  unfold pctOf
  by_cases h : d = 0
  · simp [h, round2_zero]
  · simp [h]

theorem roundHalfEven_nonneg (q : ℚ) (h : 0 ≤ q) : 0 ≤ roundHalfEven q := by
  have hf : (0 : ℤ) ≤ ⌊q⌋ := Int.floor_nonneg.mpr h
  unfold roundHalfEven
  split_ifs <;> omega

theorem roundHalfEven_le (q : ℚ) (B : ℤ) (h : q ≤ B) : roundHalfEven q ≤ B := by
  have hfl : ⌊q⌋ ≤ B := by
    calc ⌊q⌋ ≤ ⌊(B : ℚ)⌋ := Int.floor_le_floor h
    _ = B := Int.floor_intCast B
  have hstep : 1 / 2 ≤ q - ⌊q⌋ → ⌊q⌋ + 1 ≤ B := by
    intro hh
    have h1 : (⌊q⌋ : ℚ) < B := by
      have : (⌊q⌋ : ℚ) + 1 / 2 ≤ q := by linarith
      have hB : (⌊q⌋ : ℚ) + 1 / 2 ≤ (B : ℚ) := le_trans this h
      have : (⌊q⌋ : ℚ) < (B : ℚ) := by linarith
      exact this
    have : ⌊q⌋ < B := by exact_mod_cast h1
    omega
  unfold roundHalfEven
  split_ifs with h1 h2 h3
  · exact hfl
  · exact hstep (le_of_lt h2)
  · exact hfl
  · exact hstep (le_of_eq (by linarith))

theorem round2_bounds (q : ℚ) (h0 : 0 ≤ q) (h1 : q ≤ 100) :
    0 ≤ round2 q ∧ round2 q ≤ 100 := by
  have hq0 : 0 ≤ q * 100 := by positivity
  have hq1 : q * 100 ≤ ((10000 : ℤ) : ℚ) := by push_cast; linarith
  have hr0 : 0 ≤ roundHalfEven (q * 100) := roundHalfEven_nonneg _ hq0
  have hr1 : roundHalfEven (q * 100) ≤ 10000 := roundHalfEven_le _ _ hq1
  unfold round2
  constructor
  · positivity
  · rw [div_le_iff₀ (by norm_num : (0 : ℚ) < 100)]
    calc (roundHalfEven (q * 100) : ℚ) ≤ ((10000 : ℤ) : ℚ) := by exact_mod_cast hr1
    _ = 100 * 100 := by norm_num

theorem pctOf_bounds (n d : ℚ) (h0 : 0 ≤ n) (h1 : n ≤ d) :
    0 ≤ pctOf n d ∧ pctOf n d ≤ 100 := by
  rw [pctOf_eq]
  by_cases hd : d = 0
  · simp [hd]
  · have hdpos : 0 < d := lt_of_le_of_ne (le_trans h0 h1) (Ne.symm hd)
    have hr0 : 0 ≤ n / d * 100 := by positivity
    have hr1 : n / d * 100 ≤ 100 := by
      have : n / d ≤ 1 := (div_le_one hdpos).mpr h1
      linarith
    simpa [hd] using round2_bounds _ hr0 hr1

theorem addToGroups_ne_nil (acc : List (String × List CRow)) (l : String) (t : List CRow) :
    addToGroups acc l t ≠ [] := by
  cases acc with
  | nil => simp [addToGroups]
  | cons p rest =>
      cases p
      unfold addToGroups
      split <;> simp

theorem foldl_addToGroups_ne_nil (items : List (String × List CRow)) :
    ∀ acc, acc ≠ [] → items.foldl (fun acc p => addToGroups acc p.1 p.2) acc ≠ [] := by
  induction items with
  | nil => intro acc h; exact h
  | cons i items ih => intro acc _; exact ih _ (addToGroups_ne_nil _ _ _)

theorem buildGroups_eq_nil_iff (items : List (String × List CRow)) :
    buildGroups items = [] ↔ items = [] := by
  constructor
  · intro h
    cases items with
    | nil => rfl
    | cons i items =>
        exact absurd h (foldl_addToGroups_ne_nil items _ (addToGroups_ne_nil [] i.1 i.2))
  · rintro rfl; rfl

theorem combineAll_eq_none_iff (ts : List MTable) :
    combineAll ts = none ↔ ts = [] := by
  cases ts <;> simp [combineAll]

/-! ### Claim theorems -/

/-- Claim C1: for every local input table, every row of the local
normalizer's output is an (organisation, month) row of the grouped
table (organisation rows and the appended rollup) whose percentage cell
is round(Numerator / Denominator * 100, 2) when the row's summed
Denominator is non-zero, and exactly 0 (a value, not a missing cell)
when the summed Denominator is 0. -/
theorem c1_local_percentage (t : LocalTable) (r : CRow) :
    r ∈ clean_local t ↔ ∃ g ∈ localPrePct t,
      r = ⟨g.org, some g.month,
           some (if g.den = 0 then (0 : ℚ) else round2 (g.num / g.den * 100))⟩ := by
  unfold clean_local
  rw [List.mem_map]
  constructor
  · rintro ⟨g, hg, rfl⟩; exact ⟨g, hg, by rw [pctOf_eq]⟩
  · rintro ⟨g, hg, rfl⟩; exact ⟨g, hg, by rw [pctOf_eq]⟩

/-- Claim C2: the local normalizer appends to the grouped organisation
rows exactly one synthetic rollup row per distinct month, labelled with
the fixed region name, whose Numerator and Denominator are the sums of
those columns over the grouped organisation rows of that month, and
whose percentage is round(Numerator / Denominator * 100, 2), or 0 when
the summed Denominator is 0. -/
theorem c2_regional_rollup (t : LocalTable) :
    clean_local t = (localGrouped t ++ localRollup t).map
        (fun g => (⟨g.org, some g.month, some (pctOf g.num g.den)⟩ : CRow)) ∧
    (localRollup t).map (fun g => g.month) = dedupFirst ((localGrouped t).map (fun g => g.month)) ∧
    ((localRollup t).map (fun g => g.month)).Nodup ∧
    ∀ g ∈ localRollup t, g.org = icbName ∧
      g.num = rollupSum (localGrouped t) (fun x => x.num) g.month ∧
      g.den = rollupSum (localGrouped t) (fun x => x.den) g.month ∧
      pctOf g.num g.den = if g.den = 0 then 0 else round2 (g.num / g.den * 100) := by
  have hmap : (localRollup t).map (fun g => g.month) = rollupMonths t := by
    unfold localRollup
    rw [List.map_map]
    exact List.map_id' _
  refine ⟨rfl, ?_, ?_, ?_⟩
  · rw [hmap]; rfl
  · rw [hmap]; exact nodup_dedupFirst _
  · intro g hg
    unfold localRollup at hg
    rw [List.mem_map] at hg
    obtain ⟨m, _, rfl⟩ := hg
    exact ⟨rfl, rfl, rfl, pctOf_eq _ _⟩

/-- Claim C2 witness: on the concrete table `wTable` the rollup row's
Numerator is the monthly sum over the grouped organisation rows. -/
theorem c2_regional_rollup_witness :
    (⟨icbName, (2024, 1), (50 : ℚ), (100 : ℚ)⟩ : GRow).num =
      rollupSum (localGrouped wTable) (fun x => x.num) (2024, 1) := by
  have hg : (⟨icbName, (2024, 1), (50 : ℚ), (100 : ℚ)⟩ : GRow) ∈ localRollup wTable := by
    simp +decide [wTable, localRollup, localGrouped, rollupMonths, rollupSum, groupKeys,
      localParsed, localFiltered, sumNumAt, sumDenAt, dedupFirst, dedupFirstAux, parseMonth,
      monthNum, monthAbbr, year2, canonOrg, organisation_legend_mapping, icbName,
      matchesClosedPattern, anyTail, closedAt, cdTail, digitTail]
  exact ((c2_regional_rollup wTable).2.2.2 _ hg).2.1

/-- Claim C5 counterexample: the source regex makes both spaces
optional, so the code `(C5)` — no space after the parenthesis — is
excluded by the code although it contains no segment of the literal
form `( C<digit>` / `( D<digit>` that the claim describes. -/
theorem c5_cex :
    matchesClosedPattern "(C5)" = true ∧ specClosedPattern "(C5)" = false ∧
    localFiltered c5Table = [⟨"ORG A", some "P2", "Jan-24", 3, 4⟩] :=
  ⟨by decide, by decide, by decide⟩

/-- Claim C5 as amended: with a practice-code column, exactly the rows
whose code contains a parenthesis, an OPTIONAL space, `C` or `D`
(case-sensitive), an OPTIONAL space and a digit are excluded; all other
rows are kept, including rows with a missing code; without the column
no row is filtered; and the pattern is recognized at any position in
the string. -/
theorem c5_closed_filter (t : LocalTable) (r : LocalRow) :
    (r ∈ localFiltered t ↔ r ∈ t.rows ∧ (t.hasPracticeCol = true →
        ∀ s, r.practiceCode = some s → matchesClosedPattern s = false)) ∧
    (∀ l1 l2 : List Char, closedAt l2 = true → anyTail closedAt (l1 ++ l2) = true) := by
  constructor
  · unfold localFiltered
    cases ht : t.hasPracticeCol with
    | false => simp
    | true =>
        rw [if_pos rfl, List.mem_filter]
        cases hr : r.practiceCode with
        | none => simp [hr]
        | some s => simp [hr, Bool.not_eq_true']
  · intro l1 l2 h
    induction l1 with
    | nil =>
        cases l2 with
        | nil => exact absurd h (by decide)
        | cons c rest => rw [List.nil_append, anyTail, h, Bool.true_or]
    | cons c l1 ih =>
        rw [List.cons_append, anyTail, ih, Bool.or_true]

/-- Claim C5 witness: the amended pattern is position-independent on a
concrete code. -/
theorem c5_closed_filter_witness :
    closedAt ['(', ' ', 'C', '5'] = true ∧
    anyTail closedAt (['X', 'Y'] ++ ['(', ' ', 'C', '5']) = true :=
  ⟨by decide,
   (c5_closed_filter c5Table ⟨"ORG A", some "P2", "Jan-24", 3, 4⟩).2
     ['X', 'Y'] ['(', ' ', 'C', '5'] (by decide)⟩

/-- Claim C6: the national normalizer is a pure per-row map — no
grouping or aggregation — so its output row count equals its input row
count, and rows whose month failed to parse are kept with a null month;
such rows are dropped only downstream, because the per-label merge
grouping derives keys only from rows with a parsed month. -/
theorem c6_national_no_aggregation (t : NationalTable) :
    clean_national t = t.rows.map
        (fun r => (⟨canonOrg r.country, parseMonth r.month, r.value⟩ : CRow)) ∧
    (clean_national t).length = t.rows.length ∧
    (∀ (label : String) (rows : List CRow) (k : Key),
      k ∈ (mergeLabel label rows).rows.map Prod.fst ↔ ∃ r ∈ rows, keyOf r = some k) := by
  refine ⟨rfl, by simp [clean_national], ?_⟩
  intro label rows k
  unfold mergeLabel
  rw [List.map_map]
  have : (Prod.fst ∘ fun k : Key => (k, firstAt rows k)) = fun k => k := rfl
  rw [this, List.map_id', mem_dedupFirst, List.mem_filterMap]

/-- Claim C7: the run aborts with no artifact exactly when nothing was
uploaded: the pipeline yields `none` (the `st.error` / `st.stop` path,
no spreadsheet) iff both upload lists are empty. -/
theorem c7_no_data_abort (ls : List (String × LocalTable)) (ns : List (String × NationalTable)) :
    pipeline ls ns = none ↔ ls = [] ∧ ns = [] := by
  unfold pipeline combinedOf mergedTables cleanedItems
  rw [Option.map_eq_none', combineAll_eq_none_iff, List.map_eq_nil_iff,
    buildGroups_eq_nil_iff, List.append_eq_nil, List.map_eq_nil_iff, List.map_eq_nil_iff]

theorem head?_append_of_some {α : Type} (A B : List α) (a : α)
    (h : A.head? = some a) : (A ++ B).head? = some a := by
  cases A with
  | nil => simp at h
  | cons b t => simpa using h

/-- Claim C3: when the first table of a label's group has a (non-null)
value for a key, the per-label merge keeps that value for the key —
the first-encountered non-null value, not a sum or average — whatever
the second table holds. -/
theorem c3_merge_first_wins (label : String) (t1 t2 : List CRow) (k : Key) (v : ℚ)
    (h : firstAt t1 k = some v) :
    (k, some v) ∈ (mergeLabel label (t1 ++ t2)).rows := by
  have hv : v ∈ (t1.filter (fun r => decide (keyOf r = some k))).filterMap
      (fun r => r.value) := by
    apply List.mem_of_mem_head?
    rw [firstAt] at h
    rw [h]
    rfl
  obtain ⟨r, hr, hrv⟩ := List.mem_filterMap.mp hv
  have hr1 : r ∈ t1 := (List.mem_filter.mp hr).1
  have hrk : keyOf r = some k := by
    have := (List.mem_filter.mp hr).2
    exact of_decide_eq_true this
  have hkd : k ∈ dedupFirst ((t1 ++ t2).filterMap keyOf) :=
    (mem_dedupFirst _ _).mpr
      (List.mem_filterMap.mpr ⟨r, List.mem_append_left _ hr1, hrk⟩)
  have hfa : firstAt (t1 ++ t2) k = some v := by
    rw [firstAt, List.filter_append, List.filterMap_append]
    apply head?_append_of_some
    rw [firstAt] at h
    exact h
  have hmem : (k, firstAt (t1 ++ t2) k) ∈ (mergeLabel label (t1 ++ t2)).rows :=
    List.mem_map_of_mem _ hkd
  rwa [hfa] at hmem

/-- Claim C3 witness: on concrete single-row tables sharing the key
(ORG A, Jan 2024) with values 10 and 20, the merge keeps 10. -/
theorem c3_merge_first_wins_witness :
    firstAt c3RowsA ("ORG A", (2024, 1)) = some 10 ∧
    ((("ORG A", (2024, 1)) : Key), some (10 : ℚ)) ∈
      (mergeLabel "Metric 1 (%)" (c3RowsA ++ c3RowsB)).rows :=
  ⟨by decide, c3_merge_first_wins "Metric 1 (%)" c3RowsA c3RowsB _ 10 (by decide)⟩

theorem localFiltered_subset (t : LocalTable) : ∀ r ∈ localFiltered t, r ∈ t.rows := by
  intro r hr
  unfold localFiltered at hr
  split at hr
  · exact (List.mem_filter.mp hr).1
  · exact hr

theorem localParsed_bounds (t : LocalTable)
    (h : ∀ r ∈ t.rows, 0 ≤ r.numerator ∧ r.numerator ≤ r.denominator) :
    ∀ p ∈ localParsed t, 0 ≤ p.num ∧ p.num ≤ p.den := by
  intro p hp
  unfold localParsed at hp
  rw [List.mem_map] at hp
  obtain ⟨r, hr, rfl⟩ := hp
  exact h r (localFiltered_subset t r hr)

theorem sumAt_bounds (rs : List PRow) (k : String × MonthKey)
    (h : ∀ p ∈ rs, 0 ≤ p.num ∧ p.num ≤ p.den) :
    0 ≤ sumNumAt rs k ∧ sumNumAt rs k ≤ sumDenAt rs k := by
  constructor
  · apply List.sum_nonneg
    intro x hx
    rw [List.mem_map] at hx
    obtain ⟨p, hp, rfl⟩ := hx
    exact (h p (List.mem_of_mem_filter hp)).1
  · apply List.sum_le_sum
    intro p hp
    exact (h p (List.mem_of_mem_filter hp)).2

theorem rollupSum_bounds (gs : List GRow) (m : MonthKey)
    (h : ∀ g ∈ gs, 0 ≤ g.num ∧ g.num ≤ g.den) :
    0 ≤ rollupSum gs (fun x => x.num) m ∧
    rollupSum gs (fun x => x.num) m ≤ rollupSum gs (fun x => x.den) m := by
  constructor
  · apply List.sum_nonneg
    intro x hx
    rw [List.mem_map] at hx
    obtain ⟨g, hg, rfl⟩ := hx
    exact (h g (List.mem_of_mem_filter hg)).1
  · apply List.sum_le_sum
    intro g hg
    exact (h g (List.mem_of_mem_filter hg)).2

theorem localPrePct_bounds (t : LocalTable)
    (h : ∀ r ∈ t.rows, 0 ≤ r.numerator ∧ r.numerator ≤ r.denominator) :
    ∀ g ∈ localPrePct t, 0 ≤ g.num ∧ g.num ≤ g.den := by
  have hgr : ∀ g ∈ localGrouped t, 0 ≤ g.num ∧ g.num ≤ g.den := by
    intro g hg
    unfold localGrouped at hg
    rw [List.mem_map] at hg
    obtain ⟨k, _, rfl⟩ := hg
    exact sumAt_bounds _ k (localParsed_bounds t h)
  intro g hg
  rcases List.mem_append.mp hg with h1 | h2
  · exact hgr g h1
  · unfold localRollup at h2
    rw [List.mem_map] at h2
    obtain ⟨m, _, rfl⟩ := h2
    exact rollupSum_bounds _ m hgr

/-- Claim C8 counterexample: percentage values are not bounded by 100 —
a local row with Numerator 200 and Denominator 100 yields cell 200 in
the cleaned table, so the claimed invariant fails as stated. -/
theorem c8_cex :
    ¬ (∀ r ∈ clean_local c8Table, ∀ v, r.value = some v → 0 ≤ v ∧ v ≤ 100) := by
  intro hall
  have heval : clean_local c8Table =
      [⟨"ORG A", some (2024, 1), some (pctOf 200 100)⟩,
       ⟨icbName, some (2024, 1), some (pctOf 200 100)⟩] := by
    simp +decide [c8Table, clean_local, localPrePct, localGrouped, localRollup, rollupMonths,
      rollupSum, groupKeys, localParsed, localFiltered, sumNumAt, sumDenAt, dedupFirst,
      dedupFirstAux, parseMonth, monthNum, monthAbbr, year2, canonOrg,
      organisation_legend_mapping, icbName]
  have hp : pctOf 200 100 = 200 := by norm_num [pctOf, round2, roundHalfEven]
  have hmem : (⟨"ORG A", some (2024, 1), some 200⟩ : CRow) ∈ clean_local c8Table := by
    rw [heval, hp]
    exact List.mem_cons_self _ _
  have := (hall _ hmem 200 rfl).2
  norm_num at this

/-- Claim C8 as amended: the bound does hold for the local normalizer
whenever every input row satisfies 0 ≤ Numerator ≤ Denominator (a zero
summed Denominator still yields exactly 0); the national normalizer
passes its Value column through unchanged, so its output is bounded
exactly when its input is. -/
theorem c8_pct_bounded (t : LocalTable)
    (h : ∀ r ∈ t.rows, 0 ≤ r.numerator ∧ r.numerator ≤ r.denominator) :
    (∀ r ∈ clean_local t, ∀ v, r.value = some v → 0 ≤ v ∧ v ≤ 100) ∧
    ∀ (nt : NationalTable),
      (clean_national nt).map (fun r => r.value) = nt.rows.map (fun r => r.value) := by
  constructor
  · intro r hr v hv
    unfold clean_local at hr
    rw [List.mem_map] at hr
    obtain ⟨g, hg, rfl⟩ := hr
    obtain ⟨h0, h1⟩ := localPrePct_bounds t h g hg
    have := pctOf_bounds g.num g.den h0 h1
    simp only [Option.some.injEq] at hv
    exact hv ▸ this
  · intro nt
    unfold clean_national
    rw [List.map_map]
    rfl

/-- Claim C8 witness: the amended bound evaluated on `wTable`, whose
single row has Numerator 50 and Denominator 100. -/
theorem c8_pct_bounded_witness : 0 ≤ (50 : ℚ) ∧ (50 : ℚ) ≤ 100 := by
  have heval : clean_local wTable =
      [⟨"ORG A", some (2024, 1), some (pctOf 50 100)⟩,
       ⟨icbName, some (2024, 1), some (pctOf 50 100)⟩] := by
    simp +decide [wTable, clean_local, localPrePct, localGrouped, localRollup, rollupMonths,
      rollupSum, groupKeys, localParsed, localFiltered, sumNumAt, sumDenAt, dedupFirst,
      dedupFirstAux, parseMonth, monthNum, monthAbbr, year2, canonOrg,
      organisation_legend_mapping, icbName,
      matchesClosedPattern, anyTail, closedAt, cdTail, digitTail]
  have hp : pctOf 50 100 = 50 := by norm_num [pctOf, round2, roundHalfEven]
  have hmem : (⟨"ORG A", some (2024, 1), some 50⟩ : CRow) ∈ clean_local wTable := by
    rw [heval, hp]
    exact List.mem_cons_self _ _
  exact (c8_pct_bounded wTable (by
    intro r hr
    simp only [wTable, List.mem_singleton] at hr
    subst hr
    norm_num)).1 _ hmem 50 rfl

theorem take_eq_self_of_le (s : String) (n : Nat) (h : s.length ≤ n) : s.take n = s := by
  apply String.ext
  rw [String.data_take]
  exact List.take_of_length_le (by rwa [← String.length])

theorem mem_sheetWrite {p : String × Nat} (wb : List (String × Nat)) (n : String) (i : Nat)
    (h : p ∈ sheetWrite wb n i) : (p ∈ wb ∧ p.1 ≠ n) ∨ p = (n, i) := by
  unfold sheetWrite at h
  split at h
  · rename_i hany
    rw [List.mem_map] at h
    obtain ⟨q, hq, hfq⟩ := h
    by_cases hqn : q.1 == n
    · right
      rw [if_pos hqn] at hfq
      rw [← hfq]
      have : q.1 = n := by simpa using hqn
      rw [this]
    · left
      rw [if_neg hqn] at hfq
      refine ⟨hfq ▸ hq, ?_⟩
      rw [← hfq]
      simpa using hqn
  · rename_i hany
    rcases List.mem_append.mp h with h1 | h2
    · left
      refine ⟨h1, ?_⟩
      intro hn
      apply hany
      rw [List.any_eq_true]
      exact ⟨p, h1, by simpa using hn⟩
    · right
      simpa using h2

theorem sheetWrite_keeps_name {wb : List (String × Nat)} {n' : String} (n : String) (i : Nat)
    (h : ∃ p ∈ wb, p.1 = n') : ∃ p ∈ sheetWrite wb n i, p.1 = n' := by
  obtain ⟨p, hp, hpn⟩ := h
  unfold sheetWrite
  split
  · refine ⟨if p.1 == n then (p.1, i) else p, List.mem_map_of_mem _ hp, ?_⟩
    by_cases hq : p.1 == n
    · rw [if_pos hq]; exact hpn
    · rw [if_neg hq]; exact hpn
  · exact ⟨p, List.mem_append_left _ hp, hpn⟩

theorem sheetWrite_creates_name (wb : List (String × Nat)) (n : String) (i : Nat) :
    ∃ p ∈ sheetWrite wb n i, p.1 = n := by
  unfold sheetWrite
  split
  · rename_i hany
    rw [List.any_eq_true] at hany
    obtain ⟨q, hq, hqn⟩ := hany
    refine ⟨(q.1, i), ?_, by simpa using hqn⟩
    have : (q.1, i) = if q.1 == n then (q.1, i) else q := by rw [if_pos hqn]
    rw [this]
    exact List.mem_map_of_mem _ hq
  · exact ⟨(n, i), List.mem_append_right _ (List.mem_singleton.mpr rfl), rfl⟩

theorem writeSheetsFrom_keeps_name (ls : List String) :
    ∀ (i : Nat) (wb : List (String × Nat)) (n' : String),
      (∃ p ∈ wb, p.1 = n') → ∃ p ∈ writeSheetsFrom i ls wb, p.1 = n' := by
  induction ls with
  | nil => intro i wb n' h; exact h
  | cons l ls ih =>
      intro i wb n' h
      exact ih _ _ _ (sheetWrite_keeps_name _ _ h)

theorem writeSheetsFrom_covers (ls : List String) :
    ∀ (i : Nat) (wb : List (String × Nat)) (l : String), l ∈ ls →
      ∃ p ∈ writeSheetsFrom i ls wb, p.1 = l.take 31 := by
  induction ls with
  | nil => intro i wb l h; exact absurd h (List.not_mem_nil l)
  | cons l0 ls ih =>
      intro i wb l h
      rcases List.mem_cons.mp h with rfl | h
      · exact writeSheetsFrom_keeps_name ls _ _ _ (sheetWrite_creates_name wb (l.take 31) i)
      · exact ih _ _ _ h

theorem writeSheetsFrom_spec (ls : List String) :
    ∀ (i0 : Nat) (wb : List (String × Nat)), ∀ p ∈ writeSheetsFrom i0 ls wb,
      (p ∈ wb ∧ ∀ j (hj : j < ls.length), (ls.get ⟨j, hj⟩).take 31 ≠ p.1) ∨
      (∃ j, ∃ hj : j < ls.length, p.2 = i0 + j ∧ (ls.get ⟨j, hj⟩).take 31 = p.1 ∧
        ∀ j' (hj' : j' < ls.length), j < j' → (ls.get ⟨j', hj'⟩).take 31 ≠ p.1) := by
  induction ls with
  | nil =>
      intro i0 wb p hp
      exact Or.inl ⟨hp, fun j hj => absurd hj (Nat.not_lt_zero j)⟩
  | cons l ls ih =>
      intro i0 wb p hp
      rcases ih _ _ p hp with ⟨hmem, hnone⟩ | ⟨j, hj, hp2, htake, hlater⟩
      · rcases mem_sheetWrite wb (l.take 31) i0 hmem with ⟨hwb, hne⟩ | rfl
        · left
          refine ⟨hwb, ?_⟩
          intro j hj
          cases j with
          | zero => exact fun hc => hne hc.symm
          | succ j => exact hnone j (Nat.lt_of_succ_lt_succ hj)
        · right
          refine ⟨0, Nat.succ_pos _, by simp, by simp, ?_⟩
          intro j' hj' hlt
          cases j' with
          | zero => exact absurd hlt (Nat.lt_irrefl 0)
          | succ j' => exact hnone j' (Nat.lt_of_succ_lt_succ hj')
      · right
        refine ⟨j + 1, Nat.succ_lt_succ hj, by omega, htake, ?_⟩
        intro j' hj' hlt
        cases j' with
        | zero => exact absurd hlt (Nat.not_lt_zero _)
        | succ j' => exact hlater j' (Nat.lt_of_succ_lt_succ hj') (Nat.lt_of_succ_lt_succ hlt)

/-- Claim C9: the exporter writes, for every metric label, a sheet
named by the label's first 31 characters; each workbook entry holds the
pivot of the LAST label whose truncation equals its name (a later
colliding label overwrites an earlier one), and a label of at most 31
characters names its sheet exactly. -/
theorem c9_sheet_truncation (labels : List String) :
    (∀ l ∈ labels, ∃ p ∈ writeSheets labels, p.1 = l.take 31) ∧
    (∀ p ∈ writeSheets labels, ∃ j, ∃ hj : j < labels.length, p.2 = j ∧
        (labels.get ⟨j, hj⟩).take 31 = p.1 ∧
        ∀ j' (hj' : j' < labels.length), j < j' → (labels.get ⟨j', hj'⟩).take 31 ≠ p.1) ∧
    (∀ l ∈ labels, l.length ≤ 31 → ∃ p ∈ writeSheets labels, p.1 = l) := by
  refine ⟨?_, ?_, ?_⟩
  · intro l hl
    exact writeSheetsFrom_covers labels 0 [] l hl
  · intro p hp
    rcases writeSheetsFrom_spec labels 0 [] p hp with ⟨hmem, _⟩ | ⟨j, hj, hp2, htake, hlater⟩
    · exact absurd hmem (List.not_mem_nil p)
    · exact ⟨j, hj, by omega, htake, hlater⟩
  · intro l hl hlen
    obtain ⟨p, hp, hpn⟩ := writeSheetsFrom_covers labels 0 [] l hl
    exact ⟨p, hp, by rw [hpn, take_eq_self_of_le l 31 hlen]⟩

set_option maxRecDepth 4000 in
/-- Claim C9 witness: two 33-character labels sharing a 31-character
prefix; the final workbook entry for the shared truncated name holds
the later label's pivot (column index 1). -/
theorem c9_sheet_truncation_witness :
    c9L1 ∈ [c9L1, c9L2] ∧
    (∃ p ∈ writeSheets [c9L1, c9L2], p.1 = c9L1.take 31) ∧
    writeSheets [c9L1, c9L2] = [("AAAAAAAAAAAAAAAAAAAAAAAAAAAAAAA", 1)] :=
  ⟨by decide, (c9_sheet_truncation [c9L1, c9L2]).1 c9L1 (by decide), by decide⟩

theorem hasKey_eq_false_iff (ct : CTable) (k : Key) :
    hasKey ct k = false ↔ ∀ kv ∈ ct.rows, kv.1 ≠ k := by
  unfold hasKey
  rw [List.any_eq_false]
  constructor
  · intro h kv hkv
    have := h kv hkv
    simpa using this
  · intro h kv hkv
    simpa using h kv hkv

theorem hasKey_eq_true_iff (ct : CTable) (k : Key) :
    hasKey ct k = true ↔ k ∈ keysOfC ct := by
  unfold hasKey keysOfC
  rw [List.any_eq_true]
  constructor
  · rintro ⟨kv, hkv, hk⟩
    have : kv.1 = k := by simpa using hk
    exact this ▸ List.mem_map_of_mem Prod.fst hkv
  · intro h
    rw [List.mem_map] at h
    obtain ⟨kv, hkv, rfl⟩ := h
    exact ⟨kv, hkv, by simp⟩

theorem mem_mergeOuter_cases {l r : CTable} {row : Key × List (Option ℚ)}
    (h : row ∈ (mergeOuter l r).rows) :
    (∃ kv ∈ l.rows, row = (kv.1, kv.2 ++ List.replicate r.labels.length none) ∧
       ∀ kv2 ∈ r.rows, kv2.1 ≠ kv.1) ∨
    (∃ kv ∈ l.rows, ∃ kv2 ∈ r.rows, kv2.1 = kv.1 ∧ row = (kv.1, kv.2 ++ kv2.2)) ∨
    (∃ kv2 ∈ r.rows, row = (kv2.1, List.replicate l.labels.length none ++ kv2.2) ∧
       ∀ kv ∈ l.rows, kv.1 ≠ kv2.1) := by
  unfold mergeOuter at h
  simp only [List.mem_append] at h
  rcases h with h | h
  · rw [List.mem_flatten] at h
    obtain ⟨sub, hsub, hrow⟩ := h
    rw [List.mem_map] at hsub
    obtain ⟨kv, hkv, rfl⟩ := hsub
    by_cases hms : (r.rows.filter (fun kv2 => decide (kv2.1 = kv.1))).isEmpty
    · rw [if_pos hms, List.mem_singleton] at hrow
      left
      refine ⟨kv, hkv, hrow, ?_⟩
      intro kv2 hkv2 hk
      rw [List.isEmpty_iff, List.filter_eq_nil_iff] at hms
      exact absurd (decide_eq_true hk) (hms kv2 hkv2)
    · rw [if_neg hms, List.mem_map] at hrow
      obtain ⟨kv2, hkv2, hrow⟩ := hrow
      right; left
      rw [List.mem_filter] at hkv2
      exact ⟨kv, hkv, kv2, hkv2.1, of_decide_eq_true hkv2.2, hrow.symm⟩
  · rw [List.mem_map] at h
    obtain ⟨kv2, hkv2, hrow⟩ := h
    rw [List.mem_filter] at hkv2
    right; right
    refine ⟨kv2, hkv2.1, hrow.symm, ?_⟩
    have hfalse : hasKey l kv2.1 = false := by
      have := hkv2.2
      simpa using this
    exact (hasKey_eq_false_iff l kv2.1).mp hfalse

theorem keysOfC_mergeOuter_left (l r : CTable) (k : Key) (h : k ∈ keysOfC l) :
    k ∈ keysOfC (mergeOuter l r) := by
  rw [keysOfC, List.mem_map] at h
  obtain ⟨kv, hkv, rfl⟩ := h
  rw [keysOfC, List.mem_map]
  by_cases hms : (r.rows.filter (fun kv2 => decide (kv2.1 = kv.1))).isEmpty
  · refine ⟨(kv.1, kv.2 ++ List.replicate r.labels.length none), ?_, rfl⟩
    unfold mergeOuter
    apply List.mem_append_left
    rw [List.mem_flatten]
    refine ⟨[(kv.1, kv.2 ++ List.replicate r.labels.length none)], ?_, List.mem_singleton.mpr rfl⟩
    have : [(kv.1, kv.2 ++ List.replicate r.labels.length none)] =
        (fun kv : Key × List (Option ℚ) =>
          let ms := r.rows.filter (fun kv2 => decide (kv2.1 = kv.1))
          if ms.isEmpty then [(kv.1, kv.2 ++ List.replicate r.labels.length none)]
          else ms.map (fun kv2 => (kv.1, kv.2 ++ kv2.2))) kv := by
      simp only [if_pos hms]
    rw [this]
    exact List.mem_map_of_mem _ hkv
  · obtain ⟨kv2, hkv2⟩ := List.exists_mem_of_ne_nil _ (by
      intro hnil
      rw [List.isEmpty_iff] at hms
      exact hms hnil)
    refine ⟨(kv.1, kv.2 ++ kv2.2), ?_, rfl⟩
    unfold mergeOuter
    apply List.mem_append_left
    rw [List.mem_flatten]
    refine ⟨(r.rows.filter (fun x => decide (x.1 = kv.1))).map
        (fun x => (kv.1, kv.2 ++ x.2)), ?_, ?_⟩
    · have : (r.rows.filter (fun x => decide (x.1 = kv.1))).map
          (fun x => (kv.1, kv.2 ++ x.2)) =
          (fun kv : Key × List (Option ℚ) =>
            let ms := r.rows.filter (fun kv2 => decide (kv2.1 = kv.1))
            if ms.isEmpty then [(kv.1, kv.2 ++ List.replicate r.labels.length none)]
            else ms.map (fun kv2 => (kv.1, kv.2 ++ kv2.2))) kv := by
        simp only [if_neg hms]
      rw [this]
      exact List.mem_map_of_mem _ hkv
    · exact List.mem_map_of_mem _ hkv2

theorem keysOfC_mergeOuter_right (l r : CTable) (k : Key) (h : k ∈ keysOfC r) :
    k ∈ keysOfC (mergeOuter l r) := by
  by_cases hl : k ∈ keysOfC l
  · exact keysOfC_mergeOuter_left l r k hl
  · rw [keysOfC, List.mem_map] at h
    obtain ⟨kv2, hkv2, rfl⟩ := h
    rw [keysOfC, List.mem_map]
    refine ⟨(kv2.1, List.replicate l.labels.length none ++ kv2.2), ?_, rfl⟩
    unfold mergeOuter
    apply List.mem_append_right
    apply List.mem_map_of_mem
    rw [List.mem_filter]
    refine ⟨hkv2, ?_⟩
    have : hasKey l kv2.1 = false := by
      rw [← hasKey_eq_true_iff] at hl
      exact Bool.eq_false_iff.mpr (fun hc => hl hc)
    rw [this]
    rfl

theorem keysOfC_mergeOuter (l r : CTable) (k : Key) :
    k ∈ keysOfC (mergeOuter l r) ↔ k ∈ keysOfC l ∨ k ∈ keysOfC r := by
  constructor
  · intro h
    rw [keysOfC, List.mem_map] at h
    obtain ⟨row, hrow, rfl⟩ := h
    rcases mem_mergeOuter_cases hrow with ⟨kv, hkv, heq, _⟩ |
        ⟨kv, hkv, kv2, hkv2, hk, heq⟩ | ⟨kv2, hkv2, heq, _⟩
    · left
      rw [heq]
      show kv.1 ∈ keysOfC l
      exact List.mem_map_of_mem Prod.fst hkv
    · left
      rw [heq]
      show kv.1 ∈ keysOfC l
      exact List.mem_map_of_mem Prod.fst hkv
    · right
      rw [heq]
      show kv2.1 ∈ keysOfC r
      exact List.mem_map_of_mem Prod.fst hkv2
  · rintro (h | h)
    · exact keysOfC_mergeOuter_left l r k h
    · exact keysOfC_mergeOuter_right l r k h

theorem mergeOuter_labels (l r : CTable) :
    (mergeOuter l r).labels = l.labels ++ r.labels := rfl

theorem foldl_mergeOuter_labels (cs : List CTable) :
    ∀ acc : CTable, (cs.foldl mergeOuter acc).labels =
      acc.labels ++ (cs.map CTable.labels).flatten := by
  induction cs with
  | nil => intro acc; simp
  | cons c cs ih =>
      intro acc
      rw [List.foldl_cons, ih, mergeOuter_labels]
      simp

theorem combineNE_labels (t0 : MTable) (ts : List MTable) :
    (combineNE t0 ts).labels = t0.label :: ts.map MTable.label := by
  rw [combineNE, foldl_mergeOuter_labels]
  have : (toCTable t0).labels = [t0.label] := rfl
  rw [this, List.map_map]
  have h2 : (CTable.labels ∘ toCTable) = fun t : MTable => [t.label] := rfl
  rw [h2, flatten_map_singleton]
  rfl

theorem toCTable_WF (t : MTable) : WFc (toCTable t) := by
  intro kv hkv
  unfold toCTable at hkv
  rw [List.mem_map] at hkv
  obtain ⟨p, _, rfl⟩ := hkv
  rfl

theorem mergeOuter_WF {l r : CTable} (hl : WFc l) (hr : WFc r) :
    WFc (mergeOuter l r) := by
  intro kv hkv
  rw [mergeOuter_labels, List.length_append]
  rcases mem_mergeOuter_cases hkv with ⟨p, hp, heq, _⟩ |
      ⟨p, hp, q, hq, _, heq⟩ | ⟨q, hq, heq, _⟩
  · rw [heq]
    simp [hl p hp]
  · rw [heq]
    simp [hl p hp, hr q hq]
  · rw [heq]
    simp [hr q hq]

theorem foldl_mergeOuter_WF (cs : List CTable) :
    ∀ acc : CTable, WFc acc → (∀ c ∈ cs, WFc c) → WFc (cs.foldl mergeOuter acc) := by
  induction cs with
  | nil => intro acc h _; exact h
  | cons c cs ih =>
      intro acc hacc hcs
      rw [List.foldl_cons]
      exact ih _ (mergeOuter_WF hacc (hcs c (List.mem_cons_self c cs)))
        (fun c' hc' => hcs c' (List.mem_cons_of_mem c hc'))

theorem foldl_mergeOuter_keys (cs : List CTable) :
    ∀ (acc : CTable) (k : Key), k ∈ keysOfC (cs.foldl mergeOuter acc) ↔
      k ∈ keysOfC acc ∨ ∃ c ∈ cs, k ∈ keysOfC c := by
  induction cs with
  | nil => intro acc k; simp
  | cons c cs ih =>
      intro acc k
      rw [List.foldl_cons, ih, keysOfC_mergeOuter]
      constructor
      · rintro ((h | h) | h)
        · exact Or.inl h
        · exact Or.inr ⟨c, List.mem_cons_self c cs, h⟩
        · obtain ⟨c', hc', hk⟩ := h
          exact Or.inr ⟨c', List.mem_cons_of_mem c hc', hk⟩
      · rintro (h | ⟨c', hc', hk⟩)
        · exact Or.inl (Or.inl h)
        · rcases List.mem_cons.mp hc' with rfl | hc'
          · exact Or.inl (Or.inr hk)
          · exact Or.inr ⟨c', hc', hk⟩

theorem keysOfC_toCTable (t : MTable) : keysOfC (toCTable t) = keysOfM t := by
  unfold keysOfC toCTable keysOfM
  rw [List.map_map]
  rfl

theorem absentCell_mergeOuter_left {l r : CTable} (i : Nat) (k : Key)
    (hwf : WFc l) (hi : i < l.labels.length) (h : absentCell l i k) :
    absentCell (mergeOuter l r) i k := by
  intro row hrow hkey
  rcases mem_mergeOuter_cases hrow with ⟨kv, hkv, heq, _⟩ |
      ⟨kv, hkv, kv2, hkv2, _, heq⟩ | ⟨kv2, hkv2, heq, _⟩
  · rw [heq] at hkey ⊢
    rw [getD_append_lt _ _ _ _ (by rw [hwf kv hkv]; exact hi)]
    exact h kv hkv hkey
  · rw [heq] at hkey ⊢
    rw [getD_append_lt _ _ _ _ (by rw [hwf kv hkv]; exact hi)]
    exact h kv hkv hkey
  · rw [heq]
    rw [getD_append_lt _ _ _ _ (by rw [List.length_replicate]; exact hi)]
    exact getD_replicate' _ _ _

theorem absentCell_mergeOuter_right {l r : CTable} (j : Nat) (k : Key)
    (hwf : WFc l) (hk : k ∉ keysOfC r) :
    absentCell (mergeOuter l r) (l.labels.length + j) k := by
  intro row hrow hkey
  rcases mem_mergeOuter_cases hrow with ⟨kv, hkv, heq, _⟩ |
      ⟨kv, hkv, kv2, hkv2, hk2, heq⟩ | ⟨kv2, hkv2, heq, _⟩
  · rw [heq]
    have hlen : kv.2.length = l.labels.length := hwf kv hkv
    rw [← hlen, getD_append_add]
    exact getD_replicate' _ _ _
  · exfalso
    apply hk
    rw [heq] at hkey
    have : kv2.1 = k := by rw [hk2]; exact hkey
    exact this ▸ List.mem_map_of_mem Prod.fst hkv2
  · exfalso
    apply hk
    rw [heq] at hkey
    have hkk : kv2.1 = k := hkey
    exact hkk ▸ List.mem_map_of_mem Prod.fst hkv2

theorem foldl_absentCell (cs : List CTable) :
    ∀ (acc : CTable) (i : Nat) (k : Key), WFc acc → (∀ c ∈ cs, WFc c) →
      i < acc.labels.length → absentCell acc i k →
      absentCell (cs.foldl mergeOuter acc) i k := by
  induction cs with
  | nil => intro acc i k _ _ _ h; exact h
  | cons c cs ih =>
      intro acc i k hacc hcs hi h
      rw [List.foldl_cons]
      apply ih
      · exact mergeOuter_WF hacc (hcs c (List.mem_cons_self c cs))
      · exact fun c' hc' => hcs c' (List.mem_cons_of_mem c hc')
      · rw [mergeOuter_labels, List.length_append]
        exact Nat.lt_of_lt_of_le hi (Nat.le_add_right _ _)
      · exact absentCell_mergeOuter_left i k hacc hi h

theorem combineNE_absent (t0 : MTable) (ts pre post : List MTable) (t : MTable)
    (hsplit : t0 :: ts = pre ++ t :: post) (k : Key) (hk : k ∉ keysOfM t) :
    absentCell (combineNE t0 ts) pre.length k := by
  cases pre with
  | nil =>
      rw [List.nil_append] at hsplit
      obtain ⟨rfl, rfl⟩ : t0 = t ∧ ts = post := by
        have := List.cons.inj hsplit
        exact ⟨this.1, this.2⟩
      unfold combineNE
      apply foldl_absentCell
      · exact toCTable_WF t0
      · intro c hc
        rw [List.mem_map] at hc
        obtain ⟨t', _, rfl⟩ := hc
        exact toCTable_WF t'
      · show 0 < (toCTable t0).labels.length
        simp [toCTable]
      · intro row hrow hkey
        exfalso
        apply hk
        rw [← keysOfC_toCTable]
        exact hkey ▸ List.mem_map_of_mem Prod.fst hrow
  | cons p0 pre' =>
      rw [List.cons_append] at hsplit
      obtain ⟨rfl, rfl⟩ : t0 = p0 ∧ ts = pre' ++ t :: post := by
        have := List.cons.inj hsplit
        exact ⟨this.1, this.2⟩
      have hAlab : (combineNE t0 pre').labels.length = pre'.length + 1 := by
        rw [combineNE_labels]
        simp
      have hAwf : WFc (combineNE t0 pre') := by
        unfold combineNE
        apply foldl_mergeOuter_WF
        · exact toCTable_WF t0
        · intro c hc
          rw [List.mem_map] at hc
          obtain ⟨t', _, rfl⟩ := hc
          exact toCTable_WF t'
      have habs : absentCell (mergeOuter (combineNE t0 pre') (toCTable t))
          ((combineNE t0 pre').labels.length + 0) k := by
        apply absentCell_mergeOuter_right 0 k hAwf
        rw [keysOfC_toCTable]
        exact hk
      rw [Nat.add_zero, hAlab] at habs
      have hfold : combineNE t0 (pre' ++ t :: post) =
          List.foldl mergeOuter (mergeOuter (combineNE t0 pre') (toCTable t))
            (post.map toCTable) := by
        unfold combineNE
        rw [List.map_append, List.map_cons, List.foldl_append, List.foldl_cons]
      show absentCell (combineNE t0 (pre' ++ t :: post)) ((t0 :: pre').length) k
      rw [hfold]
      have hlen1 : (toCTable t).labels.length = 1 := rfl
      apply foldl_absentCell
      · exact mergeOuter_WF hAwf (toCTable_WF t)
      · intro c hc
        rw [List.mem_map] at hc
        obtain ⟨t', _, rfl⟩ := hc
        exact toCTable_WF t'
      · rw [mergeOuter_labels, List.length_append, hAlab, hlen1, List.length_cons]
        omega
      · exact habs

/-- Claim C4: for every non-empty list of per-label merged tables, the
outer join accumulated pairwise in encounter order always succeeds and
yields a combined table with one column per label, whose key set is
exactly the union of the inputs' key sets, and in which a key absent
from the i-th label's table has an empty cell in the i-th column. -/
theorem c4_outer_join (ts : List MTable) (hne : ts ≠ []) :
    ∃ ct, combineAll ts = some ct ∧
      ct.labels = ts.map MTable.label ∧
      (∀ kv ∈ ct.rows, kv.2.length = ts.length) ∧
      (∀ k : Key, (∃ kv ∈ ct.rows, kv.1 = k) ↔ ∃ t ∈ ts, k ∈ keysOfM t) ∧
      (∀ pre t post, ts = pre ++ t :: post → ∀ k : Key, k ∉ keysOfM t →
        ∀ kv ∈ ct.rows, kv.1 = k → kv.2.getD pre.length none = none) := by
  cases ts with
  | nil => exact absurd rfl hne
  | cons t0 rest =>
      have hwf : WFc (combineNE t0 rest) := by
        unfold combineNE
        apply foldl_mergeOuter_WF
        · exact toCTable_WF t0
        · intro c hc
          rw [List.mem_map] at hc
          obtain ⟨t', _, rfl⟩ := hc
          exact toCTable_WF t'
      refine ⟨combineNE t0 rest, rfl, combineNE_labels t0 rest, ?_, ?_, ?_⟩
      · intro kv hkv
        rw [hwf kv hkv, combineNE_labels]
        simp
      · intro k
        have hkeys : k ∈ keysOfC (combineNE t0 rest) ↔
            k ∈ keysOfC (toCTable t0) ∨ ∃ c ∈ rest.map toCTable, k ∈ keysOfC c :=
          foldl_mergeOuter_keys _ _ k
        constructor
        · rintro ⟨kv, hkv, hk⟩
          have hmem : k ∈ keysOfC (combineNE t0 rest) :=
            hk ▸ List.mem_map_of_mem Prod.fst hkv
          rcases hkeys.mp hmem with h | ⟨c, hc, hkc⟩
          · exact ⟨t0, List.mem_cons_self _ _, by rwa [keysOfC_toCTable] at h⟩
          · rw [List.mem_map] at hc
            obtain ⟨t', ht', rfl⟩ := hc
            exact ⟨t', List.mem_cons_of_mem _ ht', by rwa [keysOfC_toCTable] at hkc⟩
        · rintro ⟨t', ht', hkt⟩
          have hkc : k ∈ keysOfC (combineNE t0 rest) := by
            apply hkeys.mpr
            rcases List.mem_cons.mp ht' with rfl | h
            · left; rwa [keysOfC_toCTable]
            · right
              exact ⟨toCTable t', List.mem_map_of_mem _ h, by rwa [keysOfC_toCTable]⟩
          rw [keysOfC, List.mem_map] at hkc
          obtain ⟨kv, hkv, hk⟩ := hkc
          exact ⟨kv, hkv, hk⟩
      · intro pre t post hsplit k hk kv hkv hkey
        exact combineNE_absent t0 rest pre post t hsplit k hk kv hkv hkey

/-- Claim C4 witness: joining the two concrete per-label tables
succeeds and produces one column per label. -/
theorem c4_outer_join_witness :
    ([c4M1, c4M2] : List MTable) ≠ [] ∧
    ∃ ct, combineAll [c4M1, c4M2] = some ct ∧ ct.labels = ["A (%)", "B (%)"] := by
  refine ⟨by decide, ?_⟩
  obtain ⟨ct, h1, h2, _⟩ := c4_outer_join [c4M1, c4M2] (by decide)
  exact ⟨ct, h1, by rw [h2]; decide⟩

theorem filter_key_length_le_one (rows : List (Key × List (Option ℚ))) (k : Key)
    (h : (rows.map Prod.fst).Nodup) :
    (rows.filter (fun kv2 => decide (kv2.1 = k))).length ≤ 1 := by
  induction rows with
  | nil => simp
  | cons kv rows ih =>
      rw [List.map_cons, List.nodup_cons] at h
      obtain ⟨hnot, hnd⟩ := h
      rw [List.filter_cons]
      by_cases hk : kv.1 = k
      · rw [if_pos (decide_eq_true hk)]
        have hempty : rows.filter (fun kv2 => decide (kv2.1 = k)) = [] := by
          rw [List.filter_eq_nil_iff]
          intro kv2 hkv2 hdec
          apply hnot
          have hk2 : kv2.1 = k := of_decide_eq_true hdec
          rw [hk, ← hk2]
          exact List.mem_map_of_mem Prod.fst hkv2
        rw [hempty]
        simp
      · rw [if_neg (by simpa using hk)]
        exact ih hnd

theorem keysOfC_mergeOuter_nodup {l r : CTable} (hl : (keysOfC l).Nodup)
    (hr : (keysOfC r).Nodup) : (keysOfC (mergeOuter l r)).Nodup := by
  have hA : (((l.rows.map (fun kv =>
      let ms := r.rows.filter (fun kv2 => decide (kv2.1 = kv.1))
      if ms.isEmpty then [(kv.1, kv.2 ++ List.replicate r.labels.length none)]
      else ms.map (fun kv2 => (kv.1, kv.2 ++ kv2.2)))).flatten).map Prod.fst) =
      l.rows.map Prod.fst := by
    rw [List.map_flatten, List.map_map]
    have hcong : ∀ kv ∈ l.rows,
        (List.map Prod.fst ∘ fun kv : Key × List (Option ℚ) =>
          let ms := r.rows.filter (fun kv2 => decide (kv2.1 = kv.1))
          if ms.isEmpty then [(kv.1, kv.2 ++ List.replicate r.labels.length none)]
          else ms.map (fun kv2 => (kv.1, kv.2 ++ kv2.2))) kv = [kv.1] := by
      intro kv _
      show List.map Prod.fst
        (let ms := r.rows.filter (fun kv2 => decide (kv2.1 = kv.1))
         if ms.isEmpty then [(kv.1, kv.2 ++ List.replicate r.labels.length none)]
         else ms.map (fun kv2 => (kv.1, kv.2 ++ kv2.2))) = [kv.1]
      by_cases hms : (r.rows.filter (fun kv2 => decide (kv2.1 = kv.1))).isEmpty
      · rw [if_pos hms]
        rfl
      · rw [if_neg hms]
        have hle : (r.rows.filter (fun kv2 => decide (kv2.1 = kv.1))).length ≤ 1 :=
          filter_key_length_le_one r.rows kv.1 hr
        match hml : r.rows.filter (fun kv2 => decide (kv2.1 = kv.1)) with
        | [] => rw [hml] at hms; simp at hms
        | [x] => rw [hml]; rfl
        | x :: y :: zs => rw [hml] at hle; simp at hle
    rw [List.map_congr_left hcong, flatten_map_singleton]
  have hB : ∀ p ∈ ((r.rows.filter (fun kv2 => !(hasKey l kv2.1))).map
      (fun kv2 => (kv2.1, List.replicate l.labels.length none ++ kv2.2))).map Prod.fst,
      p ∈ keysOfC r ∧ p ∉ keysOfC l := by
    intro p hp
    rw [List.map_map, List.mem_map] at hp
    obtain ⟨kv2, hkv2, rfl⟩ := hp
    rw [List.mem_filter] at hkv2
    have hfalse : hasKey l kv2.1 = false := by simpa using hkv2.2
    constructor
    · show kv2.1 ∈ keysOfC r
      exact List.mem_map_of_mem Prod.fst hkv2.1
    · show kv2.1 ∉ keysOfC l
      intro hc
      have hcontra : hasKey l kv2.1 = true := (hasKey_eq_true_iff l _).mpr hc
      rw [hfalse] at hcontra
      exact Bool.false_ne_true hcontra
  unfold keysOfC mergeOuter
  rw [List.map_append, List.nodup_append]
  refine ⟨?_, ?_, ?_⟩
  · rw [hA]; exact hl
  · apply List.Nodup.sublist _ hr
    rw [List.map_map]
    exact ((List.filter_sublist _).map Prod.fst)
  · intro a ha hb
    rw [hA] at ha
    exact (hB a hb).2 ha

theorem foldl_keys_nodup (cs : List CTable) :
    ∀ acc : CTable, (keysOfC acc).Nodup → (∀ c ∈ cs, (keysOfC c).Nodup) →
      (keysOfC (cs.foldl mergeOuter acc)).Nodup := by
  induction cs with
  | nil => intro acc h _; exact h
  | cons c cs ih =>
      intro acc hacc hcs
      rw [List.foldl_cons]
      exact ih _ (keysOfC_mergeOuter_nodup hacc (hcs c (List.mem_cons_self c cs)))
        (fun c' hc' => hcs c' (List.mem_cons_of_mem c hc'))

theorem mergeLabel_keys_nodup (label : String) (rows : List CRow) :
    (keysOfM (mergeLabel label rows)).Nodup := by
  unfold mergeLabel keysOfM
  rw [List.map_map]
  have hid : (Prod.fst ∘ fun k : Key => (k, firstAt rows k)) = fun k : Key => k := rfl
  rw [hid, List.map_id']
  exact nodup_dedupFirst _

theorem filter_key_eq_single {rows : List (Key × List (Option ℚ))}
    {kv : Key × List (Option ℚ)} (h : (rows.map Prod.fst).Nodup) (hm : kv ∈ rows) :
    rows.filter (fun kv2 => decide (kv2.1 = kv.1)) = [kv] := by
  induction rows with
  | nil => cases hm
  | cons a rows ih =>
      rw [List.map_cons, List.nodup_cons] at h
      obtain ⟨hnot, hnd⟩ := h
      rcases List.mem_cons.mp hm with rfl | hm'
      · rw [List.filter_cons, if_pos (by simp)]
        have hempty : rows.filter (fun kv2 => decide (kv2.1 = kv.1)) = [] := by
          rw [List.filter_eq_nil_iff]
          intro kv2 hkv2 hdec
          apply hnot
          have hk2 : kv2.1 = kv.1 := of_decide_eq_true hdec
          rw [← hk2]
          exact List.mem_map_of_mem Prod.fst hkv2
        rw [hempty]
      · have hne : a.1 ≠ kv.1 := by
          intro hc
          exact hnot (hc ▸ List.mem_map_of_mem Prod.fst hm')
        rw [List.filter_cons, if_neg (by simpa using hne)]
        exact ih hnd hm'

theorem filterMap_if_key (k : Key) (g : (Key × List (Option ℚ)) → Option ℚ) :
    ∀ rows : List (Key × List (Option ℚ)),
      rows.filterMap (fun kv' => if kv'.1 = k then g kv' else none) =
      (rows.filter (fun kv' => decide (kv'.1 = k))).filterMap g := by
  intro rows
  induction rows with
  | nil => rfl
  | cons a rows ih =>
      by_cases ha : a.1 = k
      · simp [List.filterMap_cons, List.filter_cons, ha, ih]
      · simp [List.filterMap_cons, List.filter_cons, ha, ih]

theorem cellEntries_eq_of_nodup {ct : CTable} (h : (keysOfC ct).Nodup)
    {kv : Key × List (Option ℚ)} (hm : kv ∈ ct.rows) (i : Nat) (v : ℚ)
    (hv : kv.2.getD i none = some v) :
    cellEntries ct i kv.1 = [v] := by
  unfold cellEntries
  rw [filterMap_if_key kv.1 (fun kv' => kv'.2.getD i none) ct.rows,
    filter_key_eq_single h hm]
  simp only [List.filterMap_cons, List.filterMap_nil, hv]

theorem pivotCell_eq_of_nodup {ct : CTable} (h : (keysOfC ct).Nodup)
    {kv : Key × List (Option ℚ)} (hm : kv ∈ ct.rows) (i : Nat) (v : ℚ)
    (hv : kv.2.getD i none = some v) :
    pivotCell ct i kv.1 = some v := by
  unfold pivotCell
  rw [cellEntries_eq_of_nodup h hm i v hv]
  norm_num

/-- Claim C10: the per-label merge leaves each per-label table with at
most one row per (organisation, month) key, the accumulated outer join
preserves that key uniqueness, and therefore the pivot's implicit
mean aggregation always averages a single value and reproduces every
non-null metric cell unchanged. -/
theorem c10_pivot_mean_identity :
    (∀ (label : String) (rows : List CRow), (keysOfM (mergeLabel label rows)).Nodup) ∧
    (∀ (ts : List MTable) (ct : CTable), (∀ t ∈ ts, (keysOfM t).Nodup) →
      combineAll ts = some ct →
      (keysOfC ct).Nodup ∧
      ∀ kv ∈ ct.rows, ∀ (i : Nat) (v : ℚ), kv.2.getD i none = some v →
        pivotCell ct i kv.1 = some v) := by
  refine ⟨mergeLabel_keys_nodup, ?_⟩
  intro ts ct hts hcomb
  cases ts with
  | nil => exact absurd hcomb (by simp [combineAll])
  | cons t0 rest =>
      have hct : combineNE t0 rest = ct := by
        have : some (combineNE t0 rest) = some ct := hcomb
        exact Option.some.inj this
      have hnd : (keysOfC ct).Nodup := by
        rw [← hct]
        unfold combineNE
        apply foldl_keys_nodup
        · rw [keysOfC_toCTable]
          exact hts t0 (List.mem_cons_self _ _)
        · intro c hc
          rw [List.mem_map] at hc
          obtain ⟨t', ht', rfl⟩ := hc
          rw [keysOfC_toCTable]
          exact hts t' (List.mem_cons_of_mem _ ht')
      exact ⟨hnd, fun kv hkv i v hv => pivotCell_eq_of_nodup hnd hkv i v hv⟩

/-- Claim C10 witness: the pivot cell of the concrete one-row table
reproduces its value 10. -/
theorem c10_pivot_mean_identity_witness :
    pivotCell (toCTable c10M) 0 ("X", (2024, 1)) = some 10 := by
  have h := (c10_pivot_mean_identity.2 [c10M] (toCTable c10M)
      (by
        intro t ht
        rw [List.mem_singleton] at ht
        subst ht
        decide) rfl).2
  exact h ((("X", (2024, 1)) : Key), [some 10]) (by decide) 0 10 (by decide)
